import Mathlib

/-!
# contra_exec: snapshot diffing, archive command selection, payload location, pipeline

A shallow embedding of `src/contra_exec.go` (and of the functions it shares with
`src/tram_exec.go`).

Modelling conventions.

* `fileTreeState` is the Go struct of the same name.  `ModTime` (a `time.Time`, only ever
  compared with `!=`) and `Size` (an `int64`, only ever compared and copied) are integers.
  `Children`, a Go `map[string]*fileTreeState`, is `none` for the nil map and `some es` for a
  non-nil map whose entries are the association list `es`.  A Go map never holds a key twice;
  on lists this is the predicate `wellFormed`.
* Pointers to nodes are replaced by the nodes themselves (the code never mutates a snapshot).
* A map read `m[name]` is `mapLookup`, a map write `m[name] = v` is `mapInsert`.
* Go leaves the iteration order of `range` over a map unspecified; the loop of
  `findFileTreeStateChanges` is `diffChildren`, which visits the entries of the list from the
  last to the first.
-/

set_option autoImplicit false

namespace ContraExec

/-! ## Data model -/

/-- The struct `fileTreeState` of `contra_exec.go`. -/
inductive fileTreeState where
  | mk (IsDir : Bool) (NodeName : String) (ModTime : Int) (Size : Int)
       (Children : Option (List (String × fileTreeState)))

namespace fileTreeState

/-- Field `IsDir`. -/
def IsDir : fileTreeState → Bool
  | mk d _ _ _ _ => d

/-- Field `NodeName`. -/
def NodeName : fileTreeState → String
  | mk _ n _ _ _ => n

/-- Field `ModTime`. -/
def ModTime : fileTreeState → Int
  | mk _ _ t _ _ => t

/-- Field `Size`. -/
def Size : fileTreeState → Int
  | mk _ _ _ s _ => s

/-- Field `Children`. -/
def Children : fileTreeState → Option (List (String × fileTreeState))
  | mk _ _ _ _ c => c

end fileTreeState

/-- The entries of a children map. -/
abbrev Entries := List (String × fileTreeState)

/-- Map read `m[name]`: absent on the nil map, otherwise the entry stored under `name`. -/
def mapLookup (m : Option Entries) (name : String) : Option fileTreeState :=
  match m with
  | none => none
  | some es => es.lookup name

/-- Map write `m[name] = v` on a non-nil map: replaces the entry under `name` or adds one. -/
def mapInsert (name : String) (v : fileTreeState) : Entries → Entries
  | [] => [(name, v)]
  | (k, w) :: rest => if k = name then (k, v) :: rest else (k, w) :: mapInsert name v rest

/-! ## The diff engine -/

mutual
/-- The function `findFileTreeStateChanges` of `contra_exec.go`: `none` is the nil result. -/
def findFileTreeStateChanges (dsa : fileTreeState) : fileTreeState → Option fileTreeState
  | .mk bIsDir bName bModTime bSize bChildren =>
    if dsa.IsDir != bIsDir then
      some (.mk bIsDir bName bModTime bSize bChildren)
    else if bIsDir then
      match bChildren with
      | some es =>
        let r := diffChildren dsa.Children es
        if r.2 then some (.mk true bName bModTime 0 (some r.1)) else none
      | none => none
    else if dsa.ModTime != bModTime || dsa.Size != bSize then
      some (.mk bIsDir bName bModTime bSize bChildren)
    else none
/-- The loop `for name, dsbChild := range dsb.Children` of `findFileTreeStateChanges`: the
result is the final `diff.Children` together with the final `anyChildrenAdded`. -/
def diffChildren (aChildren : Option Entries) : Entries → Entries × Bool
  | [] => ([], false)
  | (name, dsbChild) :: rest =>
    let r := diffChildren aChildren rest
    match mapLookup aChildren name with
    | some dsaChild =>
      match findFileTreeStateChanges dsaChild dsbChild with
      | some diffChild => (mapInsert name diffChild r.1, true)
      | none => r
    | none => (mapInsert name dsbChild r.1, true)
end

/-- The node reached from `t` by following the child names of `p`, if there is one. -/
def nodeAt (t : fileTreeState) : List String → Option fileTreeState
  | [] => some t
  | name :: p =>
    match mapLookup t.Children name with
    | some c => nodeAt c p
    | none => none

mutual
/-- No children map in the tree holds a name twice (true of every Go map). -/
def wellFormed : fileTreeState → Bool
  | .mk _ _ _ _ none => true
  | .mk _ _ _ _ (some es) => wellFormedEntries es
/-- The entries of one map: names pairwise distinct, every child well formed. -/
def wellFormedEntries : Entries → Bool
  | [] => true
  | (name, c) :: rest =>
    (List.lookup name rest).isNone && wellFormed c && wellFormedEntries rest
end

mutual
/-- Every node that is not a directory has no children, as in every snapshot built by
`getFileTreeState`. -/
def filesHaveNoChildren : fileTreeState → Bool
  | .mk _ _ _ _ none => true
  | .mk d _ _ _ (some es) => (d || es.isEmpty) && filesHaveNoChildrenEntries es
/-- The same for the children of one map. -/
def filesHaveNoChildrenEntries : Entries → Bool
  | [] => true
  | (_, c) :: rest => filesHaveNoChildren c && filesHaveNoChildrenEntries rest
end

mutual
/-- The snapshot `t'` is structurally identical to `t`: the same `IsDir`, `NodeName`,
`ModTime` and `Size`, and, at a directory, the same child names with identical children. -/
def identical : fileTreeState → fileTreeState → Bool
  | t, .mk d n m s none =>
    t.IsDir == d && t.NodeName == n && t.ModTime == m && t.Size == s &&
      (!d || (t.Children.getD []).isEmpty)
  | t, .mk d n m s (some es) =>
    t.IsDir == d && t.NodeName == n && t.ModTime == m && t.Size == s &&
      (!d || (((t.Children.getD []).all fun e => (List.lookup e.1 es).isSome) &&
        identicalEntries t.Children es))
/-- Every entry of `t'` has an identical counterpart under the same name in `t`. -/
def identicalEntries (aChildren : Option Entries) : Entries → Bool
  | [] => true
  | (name, c') :: rest =>
    (match mapLookup aChildren name with
      | some c => identical c c'
      | none => false) && identicalEntries aChildren rest
end

/-- A file node without children. -/
def fileNode (name : String) (modTime size : Int) : fileTreeState :=
  .mk false name modTime size none

/-- A directory node holding the given entries. -/
def dirNode (name : String) (modTime : Int) (es : Entries) : fileTreeState :=
  .mk true name modTime 4096 (some es)

/-! ## Materialising a diff over the `before` snapshot (from the specification) -/

mutual
/-- The diff node `d` materialised over `before`, in the words of the specification: where
both are directories each child of `d` is materialised over the child of `before` with the
same name, or added when there is none; otherwise the node of `d` replaces that of
`before`. -/
def materialise : fileTreeState → fileTreeState → fileTreeState
  | before, .mk dIsDir dName dModTime dSize none =>
    if dIsDir && before.IsDir then before else .mk dIsDir dName dModTime dSize none
  | before, .mk dIsDir dName dModTime dSize (some des) =>
    if dIsDir && before.IsDir then
      .mk before.IsDir before.NodeName before.ModTime before.Size
        (some (materialiseChildren before.Children des))
    else .mk dIsDir dName dModTime dSize (some des)
/-- The children of `before` after the children of the diff node are materialised. -/
def materialiseChildren (bChildren : Option Entries) : Entries → Entries
  | [] => bChildren.getD []
  | (name, dc) :: rest =>
    match mapLookup bChildren name with
    | some bc => mapInsert name (materialise bc dc) (materialiseChildren bChildren rest)
    | none => mapInsert name dc (materialiseChildren bChildren rest)
end

/-- The snapshot `before` with an optional diff materialised over it: `before` itself when
the diff is absent. -/
def materialiseDiff (before : fileTreeState) : Option fileTreeState → fileTreeState
  | none => before
  | some d => materialise before d

/-! ## The stubbed diff of `tram_exec.go` -/

/-- The struct `dirSpecUnit` of `tram_exec.go`. -/
structure dirSpecUnit where
  ModTime : Int
  IsDir : Bool

/-- The type `dirSpec` of `tram_exec.go`, a map from paths to units (`none` is the nil map). -/
abbrev dirSpec := Option (List (String × dirSpecUnit))

/-- The function `findDirSpecChanges` of `tram_exec.go`, which returns the nil map. -/
def findDirSpecChanges (_dsa _dsb : dirSpec) : dirSpec := none

/-- Map read on a `dirSpec`. -/
def dirSpecLookup (m : dirSpec) (name : String) : Option dirSpecUnit :=
  match m with
  | none => none
  | some es => es.lookup name

/-! ## Archive commands -/

/-- The scan of `filepath.Ext` (Go standard library, separator `/`) from the last character
towards the first: `suffix` holds the characters already passed. -/
def extScan : List Char → List Char → List Char
  | [], _ => []
  | c :: before, suffix =>
    if c = '/' then []
    else if c = '.' then '.' :: suffix
    else extScan before (c :: suffix)

/-- The function `filepath.Ext`: the suffix beginning at the final dot of the final element
of the path, empty when that element has no dot. -/
def Ext (path : String) : String :=
  String.mk (extScan path.data.reverse [])

/-- The fields of `exec.Cmd` that the program determines: the argument vector, which begins
with the program name as given, and the working directory.  (The field `Path`, which
`exec.Command` resolves through the environment, is left out.) -/
structure Cmd where
  Args : List String
  Dir : String
  deriving DecidableEq, Repr

/-- The function `exec.Command`: the program name is the first element of `Args`. -/
def Command (name : String) (arg : List String) : Cmd :=
  { Args := name :: arg, Dir := "" }

/-- The function `guessUnpackCommand` (the same in both source files): `none` is nil. -/
def guessUnpackCommand (workdir fullFilename : String) : Option Cmd :=
  let ext := Ext fullFilename
  let cmd : Option Cmd :=
    if ext = ".tar" then some (Command "tar" ["-xf", fullFilename])
    else if ext = ".gz" ∨ ext = ".gzip" then some (Command "tar" ["-xzf", fullFilename])
    else if ext = ".7z" ∨ ext = ".7zip" then some (Command "7za" ["x", fullFilename])
    else none
  match cmd with
  | some c => some { c with Dir := workdir }
  | none => none

/-- The function `guessPackCommand` of `contra_exec.go`. -/
def guessPackCommand (workdir filename dirToPack : String) : Option Cmd :=
  let ext := Ext filename
  let cmd : Option Cmd :=
    if ext = ".tar" then some (Command "tar" ["-cf", filename, dirToPack])
    else if ext = ".gz" ∨ ext = ".gzip" then some (Command "tar" ["-czf", filename, dirToPack])
    else none
  match cmd with
  | some c => some { c with Dir := workdir }
  | none => none

/-- The program and its first flag: what kind of command it is, apart from the file it is
applied to and the directory it runs in. -/
def Cmd.kind (c : Cmd) : List String :=
  c.Args.take 2

/-! ## The payload locator -/

/-- A file system entry as `os.Open` and `Readdir` show it: something that is not a
directory, or a directory with its name, whether it can be opened and listed, and its
entries. -/
inductive FsNode where
  | file (name : String)
  | dir (name : String) (readable : Bool) (entries : List FsNode)

namespace FsNode

/-- The method `Name` of `os.FileInfo`. -/
def Name : FsNode → String
  | file n => n
  | dir n _ _ => n

/-- The method `IsDir` of `os.FileInfo`. -/
def IsDir : FsNode → Bool
  | file _ => false
  | dir _ _ _ => true

/-- The entries of a directory (none for a file). -/
def entries : FsNode → List FsNode
  | file _ => []
  | dir _ _ es => es

end FsNode

/-- A path is the list of its elements; `filepath.Join(p, name)` adds one element. -/
abbrev FsPath := List String

/-- The function `diveIntoData` (the same in both source files), applied to the path
`workdir` and to the entry found there.  `none` is `log.Fatal`: the entry cannot be opened
or cannot be listed. -/
def diveIntoData (workdir : FsPath) : FsNode → Option FsPath
  | .file _ => none
  | .dir _ false _ => none
  | .dir _ true fis =>
    match fis with
    | [child] =>
      if child.IsDir then diveIntoData (workdir ++ [child.Name]) child else some workdir
    | _ => some workdir

/-- The entry reached from `root` by following the names of `p`. -/
def entryAt (root : FsNode) : List String → Option FsNode
  | [] => some root
  | name :: p =>
    match root.entries.find? (fun e => e.Name == name) with
    | some e => entryAt e p
    | none => none

mutual
/-- Every directory of the tree can be opened and listed. -/
def allReadable : FsNode → Bool
  | .file _ => true
  | .dir _ r es => r && allReadableList es
/-- The same for a list of entries. -/
def allReadableList : List FsNode → Bool
  | [] => true
  | e :: es => allReadable e && allReadableList es
end

/-- The entry `root` is the top of a chain of nested readable directories named by `names`,
each holding exactly one entry, the next directory, and ending in a directory that holds
exactly two files. -/
def isChain : List String → FsNode → Bool
  | [], .dir _ true [.file _, .file _] => true
  | name :: names, .dir _ true [child] =>
    child.IsDir && child.Name == name && isChain names child
  | _, _ => false

/-- A listing at which `diveIntoData` descends: exactly one entry, which is a directory. -/
def singleDir (es : List FsNode) : Bool :=
  match es with
  | [child] => child.IsDir
  | _ => false

/-! ## The pipeline -/

/-- The constant `execPath` of `contra_exec.go`. -/
def execPath : String := "/home/contra/exec_dir"

/-- The function `filepath.Join` on a cleaned directory path and one more element. -/
def filepathJoin (dir name : String) : String := dir ++ "/" ++ name

/-- The variable `srcDir`. -/
def srcDir : String := filepathJoin execPath "src"

/-- The variable `runDir`. -/
def runDir : String := filepathJoin execPath "run"

/-- The variable `outDir`. -/
def outDir : String := filepathJoin execPath "out"

/-- What the outside world answers during one run of `execute`: one field for each call
whose result the pipeline looks at. -/
structure JobRun where
  /-- The filename of the data file, `none` when `retrieveFile` fails. -/
  dataFilename : Option String
  /-- The filename of the control file, `none` when `retrieveFile` fails. -/
  controlFilename : Option String
  /-- The error of `dos2unix`, if any. -/
  dos2unixErr : Option String
  /-- The error of the unpack command, if any. -/
  unpackErr : Option String
  /-- The directory `runDir` after unpacking. -/
  runTree : FsNode
  /-- The error of copying the control script, if any. -/
  placeErr : Option String
  /-- The snapshot of `runDir` before the script runs, `none` when `getFileTreeState`
  returns an error. -/
  ftsBefore : Option fileTreeState
  /-- The combined output of the control script. -/
  scriptOutput : List UInt8
  /-- The error of the control script, if any. -/
  scriptErr : Option String
  /-- The snapshot of `runDir` after the script has run. -/
  ftsAfter : Option fileTreeState
  /-- The error of `treeCopy` during packing, if any. -/
  treeCopyErr : Option String
  /-- The combined output of the pack command when it fails. -/
  packCmdErr : Option String

/-- How one run of `execute` ends. -/
inductive Outcome where
  /-- The process exits through `log.Fatal` in the named function. -/
  | fatal (stage : String)
  /-- The process dies on a nil pointer dereference in the named function. -/
  | panic (stage : String)
  /-- The function returns `(output, outputName, err)`. -/
  | returned (output : List UInt8) (outputName : String) (err : Option String)
  deriving DecidableEq

/-- The result of `packTree`. -/
inductive PackResult where
  /-- The function returns nil. -/
  | ok
  /-- The function returns an error. -/
  | error (msg : String)
  /-- The function calls `log.Fatal`. -/
  | fatal
  deriving DecidableEq

/-- The function `packTree` of `contra_exec.go`; the results of `treeCopy` and of running
the pack command come from the run. -/
def packTree (run : JobRun) (_baseDir outDir filename : String) (tree : fileTreeState) :
    PackResult :=
  let dirToPack := tree.NodeName
  match run.treeCopyErr with
  | some err => .error err
  | none =>
    match guessPackCommand outDir filename dirToPack with
    | none => .fatal
    | some _ =>
      match run.packCmdErr with
      | some output => .error output
      | none => .ok

/-- The method `execute` of `contra_exec.go`. -/
def execute (run : JobRun) : Outcome :=
  -- retrieveFile, twice
  match run.dataFilename with
  | none => .fatal "retrieveFile"
  | some dataFilename =>
  match run.controlFilename with
  | none => .fatal "retrieveFile"
  | some _ =>
  -- convertToUnixLE
  match run.dos2unixErr with
  | some _ => .fatal "convertToUnixLE"
  | none =>
  -- unpackData
  match guessUnpackCommand runDir (filepathJoin srcDir dataFilename) with
  | none => .panic "unpackData"
  | some _ =>
  match run.unpackErr with
  | some _ => .fatal "unpackData"
  | none =>
  -- placeControlScript
  match diveIntoData [runDir] run.runTree with
  | none => .fatal "diveIntoData"
  | some _ =>
  match run.placeErr with
  | some _ => .fatal "placeControlScript"
  | none =>
  -- the two snapshots, whose errors are dropped, and the diff
  match run.ftsBefore, run.ftsAfter with
  | some ftsBefore, some ftsAfter =>
    let diff := findFileTreeStateChanges ftsBefore ftsAfter
    match diff with
    | some d =>
      let arName := "output.tar.gz"
      match packTree run execPath outDir arName d with
      | .fatal => .fatal "packTree"
      | _ => .returned run.scriptOutput (filepathJoin outDir arName) run.scriptErr
    | none => .returned run.scriptOutput "" run.scriptErr
  | _, _ => .panic "findFileTreeStateChanges"

/-- The child that the diff of two directories holds under `k`, when the directory `after`
holds `c` there. -/
def diffChild (aCh : Option Entries) (k : String) (c : fileTreeState) : Option fileTreeState :=
  match mapLookup aCh k with
  | some a => findFileTreeStateChanges a c
  | none => some c

/-! ## A run of the pipeline -/

/-- A run of the pipeline in which the script rewrites `input.txt`, writes `output.txt` and
exits with status 1. -/
def failingScriptRun : JobRun where
  dataFilename := some "data.tar.gz"
  controlFilename := some "control.sh"
  dos2unixErr := none
  unpackErr := none
  runTree := .dir "run" true [.file "input.txt"]
  placeErr := none
  ftsBefore := some (dirNode "run" 1
    [("input.txt", fileNode "input.txt" 1 10), ("control.sh", fileNode "control.sh" 1 40)])
  scriptOutput := [111, 107, 10]
  scriptErr := some "exit status 1"
  ftsAfter := some (dirNode "run" 2
    [("input.txt", fileNode "input.txt" 2 20), ("control.sh", fileNode "control.sh" 1 40),
      ("output.txt", fileNode "output.txt" 2 5)])
  treeCopyErr := none
  packCmdErr := none

/-- The same run, except that the pack command fails. -/
def failingPackRun : JobRun :=
  { failingScriptRun with
    scriptErr := none
    packCmdErr := some "tar: output.tar.gz: Cannot open: No space left on device" }

/-- The diff of the two snapshots of `failingScriptRun` and of `failingPackRun`. -/
def scenarioDiff : fileTreeState :=
  .mk true "run" 2 0 (some [("output.txt", fileNode "output.txt" 2 5),
    ("input.txt", fileNode "input.txt" 2 20)])

/-! ## Lemmas on maps -/

theorem lookup_mapInsert (k name : String) (v : fileTreeState) (m : Entries) :
    List.lookup k (mapInsert name v m) = if name = k then some v else List.lookup k m := by
  induction m with
  | nil =>
    by_cases h : name = k
    · subst h; simp [mapInsert, List.lookup]
    · have h' : (k == name) = false := by simpa using fun e => h e.symm
      simp [mapInsert, List.lookup, h, h']
  | cons e rest ih =>
    obtain ⟨k', w⟩ := e
    by_cases h1 : k' = name
    · subst h1
      by_cases h2 : k' = k
      · subst h2; simp [mapInsert, List.lookup]
      · have h' : (k == k') = false := by simpa using fun e => h2 e.symm
        simp [mapInsert, List.lookup, h2, h']
    · by_cases h3 : k = k'
      · subst h3
        have h4 : ¬ name = k := fun e => h1 e.symm
        simp [mapInsert, List.lookup, h1, h4]
      · have h' : (k == k') = false := by simpa using h3
        simp [mapInsert, List.lookup, h1, h', ih]

theorem mapInsert_ne_nil (name : String) (v : fileTreeState) (m : Entries) :
    mapInsert name v m ≠ [] := by
  cases m with
  | nil => simp [mapInsert]
  | cons e rest =>
    obtain ⟨k, w⟩ := e
    by_cases h : k = name <;> simp [mapInsert, h]

theorem lookup_cons (k name : String) (c : fileTreeState) (rest : Entries) :
    List.lookup k ((name, c) :: rest) = if name = k then some c else List.lookup k rest := by
  by_cases h : name = k
  · subst h; simp [List.lookup]
  · have h' : (k == name) = false := by simpa using fun e => h e.symm
    simp [List.lookup, h, h']

/-- An induction principle for snapshots: a property holds of every tree when it holds of a
node as soon as it holds of all its children. -/
theorem fileTreeState.induct (P : fileTreeState → Prop)
    (step : ∀ d n m s ch, (∀ es, ch = some es → ∀ e ∈ es, P e.2) → P (.mk d n m s ch)) :
    ∀ t, P t := by
  intro t
  refine @fileTreeState.rec P
    (fun o => ∀ es, o = some es → ∀ e ∈ es, P e.2)
    (fun l => ∀ e ∈ l, P e.2)
    (fun q => P q.2) ?_ ?_ ?_ ?_ ?_ ?_ t
  · intro d n m s ch ih
    exact step d n m s ch ih
  · intro es h
    cases h
  · intro l ih es h
    cases h
    exact ih
  · intro e h
    cases h
  · intro hd tl ih1 ih2 e he
    rcases List.mem_cons.mp he with h | h
    · subst h; exact ih1
    · exact ih2 e h
  · intro n c ih
    exact ih

/-! ## Lemmas on the diff -/

theorem diff_eq (dsa : fileTreeState) (d : Bool) (n : String) (m s : Int)
    (ch : Option Entries) :
    findFileTreeStateChanges dsa (.mk d n m s ch) =
      if dsa.IsDir != d then some (.mk d n m s ch)
      else if d then
        match ch with
        | some es =>
          if (diffChildren dsa.Children es).2 then
            some (.mk true n m 0 (some (diffChildren dsa.Children es).1))
          else none
        | none => none
      else if dsa.ModTime != m || dsa.Size != s then some (.mk d n m s ch)
      else none := by
  cases ch <;> rfl

theorem diffChildren_nil (aCh : Option Entries) : diffChildren aCh [] = ([], false) := rfl

theorem diffChildren_cons (aCh : Option Entries) (name : String) (c : fileTreeState)
    (rest : Entries) :
    diffChildren aCh ((name, c) :: rest) =
      match mapLookup aCh name with
      | some a =>
        match findFileTreeStateChanges a c with
        | some dc => (mapInsert name dc (diffChildren aCh rest).1, true)
        | none => diffChildren aCh rest
      | none => (mapInsert name c (diffChildren aCh rest).1, true) := rfl

theorem wellFormedEntries_cons (name : String) (c : fileTreeState) (rest : Entries) :
    wellFormedEntries ((name, c) :: rest) = true ↔
      List.lookup name rest = none ∧ wellFormed c = true ∧ wellFormedEntries rest = true := by
  rw [wellFormedEntries]
  simp [Bool.and_eq_true, and_assoc]

theorem wellFormed_mk (d : Bool) (n : String) (m s : Int) (ch : Option Entries) :
    wellFormed (.mk d n m s ch) = true ↔ ∀ es, ch = some es → wellFormedEntries es = true := by
  cases ch with
  | none => simp [wellFormed]
  | some es => simp [wellFormed]

theorem wellFormedEntries_mem (es : Entries) (hwf : wellFormedEntries es = true)
    (e : String × fileTreeState) (he : e ∈ es) :
    List.lookup e.1 es = some e.2 ∧ wellFormed e.2 = true := by
  induction es with
  | nil => cases he
  | cons hd rest ih =>
    obtain ⟨name, c⟩ := hd
    obtain ⟨h1, h2, h3⟩ := (wellFormedEntries_cons name c rest).mp hwf
    rcases List.mem_cons.mp he with h | h
    · subst h
      exact ⟨by simp [lookup_cons], h2⟩
    · obtain ⟨ih1, ih2⟩ := ih h3 h
      refine ⟨?_, ih2⟩
      rw [lookup_cons]
      by_cases hk : name = e.1
      · rw [hk, ih1] at h1; cases h1
      · simp [hk, ih1]

theorem lookup_mem (es : Entries) (k : String) (c : fileTreeState)
    (h : List.lookup k es = some c) : (k, c) ∈ es := by
  induction es with
  | nil => simp [List.lookup] at h
  | cons hd rest ih =>
    obtain ⟨name, c'⟩ := hd
    rw [lookup_cons] at h
    by_cases hk : name = k
    · simp [hk] at h
      subst hk; subst h
      exact List.mem_cons_self _ _
    · simp [hk] at h
      exact List.mem_cons_of_mem _ (ih h)

theorem diffChildren_lookup (aCh : Option Entries) (es : Entries)
    (hwf : wellFormedEntries es = true) (k : String) :
    List.lookup k (diffChildren aCh es).1 =
      match List.lookup k es with
      | some c => diffChild aCh k c
      | none => none := by
  induction es with
  | nil => simp [diffChildren_nil, List.lookup]
  | cons hd rest ih =>
    obtain ⟨name, c⟩ := hd
    obtain ⟨h1, _, h3⟩ := (wellFormedEntries_cons name c rest).mp hwf
    have ih' := ih h3
    rw [diffChildren_cons, lookup_cons]
    by_cases hk : name = k
    · subst hk
      rw [h1] at ih'
      simp only [if_true, diffChild]
      cases hA : mapLookup aCh name with
      | none => simp [lookup_mapInsert]
      | some a =>
        cases hD : findFileTreeStateChanges a c with
        | none => simpa [hD] using ih'
        | some dc => simp [hD, lookup_mapInsert]
    · simp only [hk, if_false]
      cases hA : mapLookup aCh name with
      | none => simpa [lookup_mapInsert, hk] using ih'
      | some a =>
        cases hD : findFileTreeStateChanges a c with
        | none => simpa [hD] using ih'
        | some dc => simpa [hD, lookup_mapInsert, hk] using ih'

theorem diffChildren_flag (aCh : Option Entries) (es : Entries) :
    (diffChildren aCh es).2 = false → (diffChildren aCh es).1 = [] := by
  induction es with
  | nil => intro _; rfl
  | cons hd rest ih =>
    obtain ⟨name, c⟩ := hd
    rw [diffChildren_cons]
    cases hA : mapLookup aCh name with
    | none => simp
    | some a =>
      cases hD : findFileTreeStateChanges a c with
      | none => simpa [hD] using ih
      | some dc => simp [hD]

theorem diffChildren_none (aCh : Option Entries) (es : Entries)
    (h : ∀ e ∈ es, ∃ a, mapLookup aCh e.1 = some a ∧ findFileTreeStateChanges a e.2 = none) :
    diffChildren aCh es = ([], false) := by
  induction es with
  | nil => rfl
  | cons hd rest ih =>
    obtain ⟨name, c⟩ := hd
    obtain ⟨a, ha1, ha2⟩ := h (name, c) (List.mem_cons_self _ _)
    rw [diffChildren_cons]
    simp only at ha1 ha2
    rw [ha1]
    simp only [ha2]
    exact ih (fun e he => h e (List.mem_cons_of_mem _ he))

theorem identicalEntries_mem (aCh : Option Entries) (es : Entries)
    (h : identicalEntries aCh es = true) :
    ∀ e ∈ es, ∃ c, mapLookup aCh e.1 = some c ∧ identical c e.2 = true := by
  induction es with
  | nil => intro e he; cases he
  | cons hd rest ih =>
    obtain ⟨name, c'⟩ := hd
    rw [identicalEntries, Bool.and_eq_true] at h
    obtain ⟨h1, h2⟩ := h
    intro e he
    rcases List.mem_cons.mp he with he | he
    · subst he
      cases hA : mapLookup aCh name with
      | none => simp [hA] at h1
      | some c => exact ⟨c, rfl, by simpa [hA] using h1⟩
    · exact ih h2 e he

theorem identical_fields (t : fileTreeState) (d : Bool) (n : String) (m s : Int)
    (ch : Option Entries) (h : identical t (.mk d n m s ch) = true) :
    t.IsDir = d ∧ t.ModTime = m ∧ t.Size = s ∧
      (d = true → ∀ es, ch = some es → identicalEntries t.Children es = true) := by
  cases ch with
  | none =>
    rw [identical] at h
    simp only [Bool.and_eq_true, beq_iff_eq] at h
    exact ⟨h.1.1.1.1, h.1.1.2, h.1.2, fun _ es hes => by cases hes⟩
  | some es =>
    rw [identical] at h
    simp only [Bool.and_eq_true, beq_iff_eq, Bool.or_eq_true, Bool.not_eq_true'] at h
    refine ⟨h.1.1.1.1, h.1.1.2, h.1.2, fun hd es' hes => ?_⟩
    cases hes
    rcases h.2 with h2 | h2
    · rw [hd] at h2; cases h2
    · exact h2.2

theorem diff_identical_aux :
    ∀ t' t, identical t t' = true → findFileTreeStateChanges t t' = none := by
  refine fileTreeState.induct _ ?_
  intro d n m s ch ih t h
  obtain ⟨h1, h2, h3, h4⟩ := identical_fields t d n m s ch h
  rw [diff_eq]
  simp only [h1, h2, h3, bne_self_eq_false, Bool.false_eq_true, if_false, Bool.or_self]
  cases d with
  | false => simp
  | true =>
    simp only [if_true]
    cases ch with
    | none => rfl
    | some es =>
      have hes := identicalEntries_mem _ _ (h4 rfl es rfl)
      have : diffChildren t.Children es = ([], false) := by
        apply diffChildren_none
        intro e he
        obtain ⟨c, hc1, hc2⟩ := hes e he
        exact ⟨c, hc1, ih es rfl e he c hc2⟩
      simp [this]

theorem diff_self_aux : ∀ t, wellFormed t = true → findFileTreeStateChanges t t = none := by
  refine fileTreeState.induct _ ?_
  intro d n m s ch ih hwf
  rw [diff_eq]
  simp only [fileTreeState.IsDir, fileTreeState.ModTime, fileTreeState.Size,
    bne_self_eq_false, Bool.false_eq_true, if_false, Bool.or_self]
  cases d with
  | false => simp
  | true =>
    simp only [if_true]
    cases ch with
    | none => rfl
    | some es =>
      have hes := (wellFormed_mk true n m s (some es)).mp hwf es rfl
      have : diffChildren (some es) es = ([], false) := by
        apply diffChildren_none
        intro e he
        obtain ⟨h1, h2⟩ := wellFormedEntries_mem es hes e he
        exact ⟨e.2, h1, ih es rfl e he h2⟩
      simp [fileTreeState.Children, this]

@[simp] theorem fileTreeState.IsDir_mk (d : Bool) (n : String) (m s : Int)
    (ch : Option Entries) : (fileTreeState.mk d n m s ch).IsDir = d := rfl

@[simp] theorem fileTreeState.NodeName_mk (d : Bool) (n : String) (m s : Int)
    (ch : Option Entries) : (fileTreeState.mk d n m s ch).NodeName = n := rfl

@[simp] theorem fileTreeState.ModTime_mk (d : Bool) (n : String) (m s : Int)
    (ch : Option Entries) : (fileTreeState.mk d n m s ch).ModTime = m := rfl

@[simp] theorem fileTreeState.Size_mk (d : Bool) (n : String) (m s : Int)
    (ch : Option Entries) : (fileTreeState.mk d n m s ch).Size = s := rfl

@[simp] theorem fileTreeState.Children_mk (d : Bool) (n : String) (m s : Int)
    (ch : Option Entries) : (fileTreeState.mk d n m s ch).Children = ch := rfl

theorem diff_flip (dsa dsb : fileTreeState) (h : dsa.IsDir ≠ dsb.IsDir) :
    findFileTreeStateChanges dsa dsb = some dsb := by
  obtain ⟨d, n, m, s, ch⟩ := dsb
  rw [diff_eq]
  have : (dsa.IsDir != d) = true := by simpa [fileTreeState.IsDir] using h
  simp [this]

theorem diff_dir_dir (dsa : fileTreeState) (n : String) (m s : Int) (es : Entries)
    (h : dsa.IsDir = true) :
    findFileTreeStateChanges dsa (.mk true n m s (some es)) =
      if (diffChildren dsa.Children es).2 then
        some (.mk true n m 0 (some (diffChildren dsa.Children es).1))
      else none := by
  rw [diff_eq]
  simp [h]

theorem diff_dir_nil (dsa : fileTreeState) (n : String) (m s : Int) (h : dsa.IsDir = true) :
    findFileTreeStateChanges dsa (.mk true n m s none) = none := by
  rw [diff_eq]
  simp [h]

theorem diff_file_file (dsa : fileTreeState) (n : String) (m s : Int) (ch : Option Entries)
    (h : dsa.IsDir = false) :
    findFileTreeStateChanges dsa (.mk false n m s ch) =
      if dsa.ModTime ≠ m ∨ dsa.Size ≠ s then some (.mk false n m s ch) else none := by
  rw [diff_eq]
  simp [h]

theorem nodeAt_cons (t : fileTreeState) (k : String) (q : List String) :
    nodeAt t (k :: q) =
      match mapLookup t.Children k with
      | some c => nodeAt c q
      | none => none := rfl

theorem filesHaveNoChildren_mk (d : Bool) (n : String) (m s : Int) (es : Entries)
    (h : filesHaveNoChildren (.mk d n m s (some es)) = true) :
    (d = true ∨ es = []) ∧ filesHaveNoChildrenEntries es = true := by
  rw [filesHaveNoChildren] at h
  simpa [Bool.and_eq_true, List.isEmpty_iff] using h

theorem filesHaveNoChildrenEntries_mem (es : Entries)
    (h : filesHaveNoChildrenEntries es = true) :
    ∀ e ∈ es, filesHaveNoChildren e.2 = true := by
  induction es with
  | nil => intro e he; cases he
  | cons hd rest ih =>
    obtain ⟨name, c⟩ := hd
    rw [filesHaveNoChildrenEntries, Bool.and_eq_true] at h
    intro e he
    rcases List.mem_cons.mp he with he | he
    · subst he; exact h.1
    · exact ih h.2 e he

/-- The children of the diff of two directories, looked up by name. -/
theorem diff_dir_dir_child (dsa : fileTreeState) (n : String) (m s : Int) (es : Entries)
    (d : fileTreeState) (hdir : dsa.IsDir = true) (hwf : wellFormedEntries es = true)
    (hd : findFileTreeStateChanges dsa (.mk true n m s (some es)) = some d) (k : String) :
    d.NodeName = n ∧ d.IsDir = true ∧
    mapLookup d.Children k =
      match List.lookup k es with
      | some c => diffChild dsa.Children k c
      | none => none := by
  rw [diff_dir_dir dsa n m s es hdir] at hd
  by_cases hf : (diffChildren dsa.Children es).2 = true
  · simp only [hf, if_true, Option.some.injEq] at hd
    subst hd
    exact ⟨rfl, rfl, diffChildren_lookup dsa.Children es hwf k⟩
  · simp [hf] at hd

/-- The diff of two directories is present as soon as one child has a diff. -/
theorem diff_dir_dir_some (dsa : fileTreeState) (n : String) (m s : Int) (es : Entries)
    (hdir : dsa.IsDir = true) (hwf : wellFormedEntries es = true) (k : String)
    (c dc : fileTreeState) (hc : List.lookup k es = some c)
    (hdc : diffChild dsa.Children k c = some dc) :
    ∃ d, findFileTreeStateChanges dsa (.mk true n m s (some es)) = some d := by
  rw [diff_dir_dir dsa n m s es hdir]
  by_cases hf : (diffChildren dsa.Children es).2 = true
  · simp [hf]
  · have h0 := diffChildren_flag dsa.Children es (by simpa using hf)
    have h1 := diffChildren_lookup dsa.Children es hwf k
    rw [h0, hc] at h1
    simp only [hdc] at h1
    simp [List.lookup] at h1

theorem mapLookup_some_entries (ch : Option Entries) (k : String) (c : fileTreeState)
    (h : mapLookup ch k = some c) : ∃ es, ch = some es ∧ List.lookup k es = some c := by
  cases ch with
  | none => simp [mapLookup] at h
  | some es => exact ⟨es, rfl, h⟩

theorem diff_node_in_after_aux :
    ∀ (p : List String) (before after d x : fileTreeState), wellFormed after = true →
      findFileTreeStateChanges before after = some d → nodeAt d p = some x →
      ∃ y, nodeAt after p = some y ∧ y.NodeName = x.NodeName ∧ y.IsDir = x.IsDir := by
  intro p
  induction p with
  | nil =>
    intro before after d x hwf hd hx
    simp only [nodeAt, Option.some.injEq] at hx
    subst hx
    refine ⟨after, rfl, ?_⟩
    by_cases hflip : before.IsDir = after.IsDir
    · obtain ⟨b, n, m, s, ch⟩ := after
      cases b with
      | false =>
        rw [diff_file_file before n m s ch hflip] at hd
        by_cases hc : before.ModTime ≠ m ∨ before.Size ≠ s
        · simp only [hc, if_true, Option.some.injEq] at hd
          subst hd; exact ⟨rfl, rfl⟩
        · simp [hc] at hd
      | true =>
        cases ch with
        | none => rw [diff_dir_nil before n m s hflip] at hd; cases hd
        | some es =>
          have hes := (wellFormed_mk true n m s (some es)).mp hwf es rfl
          obtain ⟨h1, h2, _⟩ := diff_dir_dir_child before n m s es d hflip hes hd ""
          exact ⟨h1.symm, h2.symm⟩
    · rw [diff_flip before after hflip, Option.some.injEq] at hd
      subst hd; exact ⟨rfl, rfl⟩
  | cons k q ih =>
    intro before after d x hwf hd hx
    by_cases hflip : before.IsDir = after.IsDir
    · obtain ⟨b, n, m, s, ch⟩ := after
      cases b with
      | false =>
        rw [diff_file_file before n m s ch hflip] at hd
        by_cases hc : before.ModTime ≠ m ∨ before.Size ≠ s
        · simp only [hc, if_true, Option.some.injEq] at hd
          subst hd; exact ⟨x, hx, rfl, rfl⟩
        · simp [hc] at hd
      | true =>
        cases ch with
        | none => rw [diff_dir_nil before n m s hflip] at hd; cases hd
        | some es =>
          have hes := (wellFormed_mk true n m s (some es)).mp hwf es rfl
          obtain ⟨_, _, h3⟩ := diff_dir_dir_child before n m s es d hflip hes hd k
          rw [nodeAt_cons] at hx
          rw [nodeAt_cons]
          simp only [fileTreeState.Children, mapLookup]
          cases hdk : mapLookup d.Children k with
          | none => simp [hdk] at hx
          | some dc =>
            simp only [hdk] at hx
            rw [hdk] at h3
            cases hck : List.lookup k es with
            | none => simp [hck] at h3
            | some c =>
              simp only [hck] at h3
              have hcwf := (wellFormedEntries_mem es hes (k, c) (lookup_mem es k c hck)).2
              simp only [diffChild] at h3
              cases hbk : mapLookup before.Children k with
              | none =>
                simp only [hbk, Option.some.injEq] at h3
                subst h3
                exact ⟨x, hx, rfl, rfl⟩
              | some b' =>
                simp only [hbk] at h3
                exact ih b' c dc x hcwf h3.symm hx
    · rw [diff_flip before after hflip, Option.some.injEq] at hd
      subst hd; exact ⟨x, hx, rfl, rfl⟩

theorem diff_complete_aux :
    ∀ (p : List String) (before after f : fileTreeState), wellFormed after = true →
      filesHaveNoChildren after = true → nodeAt after p = some f → f.IsDir = false →
      (nodeAt before p = none ∨
        ∃ b, nodeAt before p = some b ∧ b.IsDir = false ∧
          (b.ModTime ≠ f.ModTime ∨ b.Size ≠ f.Size)) →
      ∃ d, findFileTreeStateChanges before after = some d ∧ nodeAt d p = some f := by
  intro p
  induction p with
  | nil =>
    intro before after f _ _ hf hfile hb
    simp only [nodeAt, Option.some.injEq] at hf
    subst hf
    rcases hb with hb | ⟨b, hb1, hb2, hb3⟩
    · simp [nodeAt] at hb
    · simp only [nodeAt, Option.some.injEq] at hb1
      subst hb1
      obtain ⟨d, n, m, s, ch⟩ := after
      simp only [fileTreeState.IsDir_mk] at hfile
      subst hfile
      rw [diff_file_file before n m s ch hb2]
      simp only [fileTreeState.ModTime_mk, fileTreeState.Size_mk] at hb3
      simp only [hb3, if_true]
      exact ⟨_, rfl, rfl⟩
  | cons k q ih =>
    intro before after f hwf hnc hf hfile hb
    by_cases hflip : before.IsDir = after.IsDir
    · obtain ⟨d, n, m, s, ch⟩ := after
      rw [nodeAt_cons] at hf
      cases hck' : mapLookup ch k with
      | none => simp [fileTreeState.Children_mk, hck'] at hf
      | some c =>
        simp only [fileTreeState.Children_mk, hck'] at hf
        obtain ⟨es, hes, hck⟩ := mapLookup_some_entries ch k c hck'
        subst hes
        have hmem := lookup_mem es k c hck
        obtain ⟨hd, hnce⟩ := filesHaveNoChildren_mk d n m s es hnc
        have hdir : d = true := by
          rcases hd with hd | hd
          · exact hd
          · subst hd; cases hmem
        subst hdir
        have hes := (wellFormed_mk true n m s (some es)).mp hwf es rfl
        have hcwf := (wellFormedEntries_mem es hes (k, c) hmem).2
        have hcnc := filesHaveNoChildrenEntries_mem es hnce (k, c) hmem
        have key : ∃ dc, diffChild before.Children k c = some dc ∧ nodeAt dc q = some f := by
          simp only [diffChild]
          cases hbk : mapLookup before.Children k with
          | none => exact ⟨c, rfl, hf⟩
          | some b' =>
            simp only [nodeAt_cons, hbk] at hb
            exact ih b' c f hcwf hcnc hf hfile hb
        obtain ⟨dc, hdc1, hdc2⟩ := key
        obtain ⟨dd, hdd⟩ := diff_dir_dir_some before n m s es hflip hes k c dc hck hdc1
        refine ⟨dd, hdd, ?_⟩
        obtain ⟨_, _, h3⟩ := diff_dir_dir_child before n m s es dd hflip hes hdd k
        rw [hck] at h3
        simp only [hdc1] at h3
        rw [nodeAt_cons, h3]
        exact hdc2
    · exact ⟨after, diff_flip before after hflip, hf⟩

theorem diff_minimal_aux :
    ∀ (p : List String) (before after a b d : fileTreeState), wellFormed after = true →
      nodeAt after p = some a → a.IsDir = false →
      nodeAt before p = some b → b.IsDir = false → b.ModTime = a.ModTime → b.Size = a.Size →
      (∀ q r, p = q ++ r → r ≠ [] →
        ∃ x y, nodeAt before q = some x ∧ x.IsDir = true ∧
          nodeAt after q = some y ∧ y.IsDir = true) →
      findFileTreeStateChanges before after = some d → nodeAt d p = none := by
  intro p
  induction p with
  | nil =>
    intro before after a b d _ ha hafile hb hbfile hm hs _ hd
    simp only [nodeAt, Option.some.injEq] at ha hb
    subst ha; subst hb
    obtain ⟨ad, n, m, s, ch⟩ := after
    simp only [fileTreeState.IsDir_mk] at hafile
    subst hafile
    rw [diff_file_file before n m s ch hbfile] at hd
    simp only [fileTreeState.ModTime_mk, fileTreeState.Size_mk] at hm hs
    simp [hm, hs] at hd
  | cons k q ih =>
    intro before after a b d hwf ha hafile hb hbfile hm hs hpre hd
    obtain ⟨x, y, hx, hxd, hy, hyd⟩ := hpre [] (k :: q) rfl (by simp)
    simp only [nodeAt, Option.some.injEq] at hx hy
    subst hx; subst hy
    obtain ⟨ad, n, m, s, ch⟩ := after
    simp only [fileTreeState.IsDir_mk] at hyd
    subst hyd
    rw [nodeAt_cons] at ha hb
    cases hck' : mapLookup ch k with
    | none => simp [fileTreeState.Children_mk, hck'] at ha
    | some c =>
      simp only [fileTreeState.Children_mk, hck'] at ha
      obtain ⟨es, hes, hck⟩ := mapLookup_some_entries ch k c hck'
      subst hes
      have hes := (wellFormed_mk true n m s (some es)).mp hwf es rfl
      have hcwf := (wellFormedEntries_mem es hes (k, c) (lookup_mem es k c hck)).2
      cases hbk : mapLookup before.Children k with
      | none => simp [hbk] at hb
      | some b' =>
        simp only [hbk] at hb
        obtain ⟨_, _, h3⟩ := diff_dir_dir_child before n m s es d hxd hes hd k
        rw [hck] at h3
        simp only [diffChild, hbk] at h3
        rw [nodeAt_cons, h3]
        cases hdc : findFileTreeStateChanges b' c with
        | none => rfl
        | some dc =>
          simp only
          refine ih b' c a b dc hcwf ha hafile hb hbfile hm hs ?_ hdc
          intro q' r hq hr
          obtain ⟨x, y, hx, hxd', hy, hyd'⟩ := hpre (k :: q') r (by simp [hq]) hr
          refine ⟨x, y, ?_, hxd', ?_, hyd'⟩
          · simpa [nodeAt_cons, hbk] using hx
          · simpa [nodeAt_cons, fileTreeState.Children_mk, hck'] using hy

/-! ## Lemmas on materialising -/

theorem materialise_of_not_both (before d : fileTreeState)
    (h : ¬ (d.IsDir = true ∧ before.IsDir = true)) : materialise before d = d := by
  obtain ⟨dd, n, m, s, ch⟩ := d
  have h' : (dd && before.IsDir) = false := by
    simpa [Bool.and_eq_true] using h
  cases ch with
  | none => rw [materialise]; simp [h']
  | some es => rw [materialise]; simp [h']

theorem materialise_dir_dir (before : fileTreeState) (n : String) (m s : Int) (des : Entries)
    (h : before.IsDir = true) :
    materialise before (.mk true n m s (some des)) =
      .mk before.IsDir before.NodeName before.ModTime before.Size
        (some (materialiseChildren before.Children des)) := by
  rw [materialise]; simp [h]

theorem materialiseChildren_cons (bCh : Option Entries) (name : String) (dc : fileTreeState)
    (rest : Entries) :
    materialiseChildren bCh ((name, dc) :: rest) =
      match mapLookup bCh name with
      | some bc => mapInsert name (materialise bc dc) (materialiseChildren bCh rest)
      | none => mapInsert name dc (materialiseChildren bCh rest) := by
  rw [materialiseChildren]

theorem lookup_materialiseChildren (bCh : Option Entries) (des : Entries) (k : String) :
    List.lookup k (materialiseChildren bCh des) =
      match List.lookup k des with
      | some dc =>
        some (match mapLookup bCh k with
          | some bc => materialise bc dc
          | none => dc)
      | none => mapLookup bCh k := by
  induction des with
  | nil =>
    cases bCh with
    | none => simp [materialiseChildren, mapLookup, List.lookup]
    | some es => simp [materialiseChildren, mapLookup, List.lookup]
  | cons hd rest ih =>
    obtain ⟨name, dc⟩ := hd
    rw [materialiseChildren_cons, lookup_cons]
    by_cases hk : name = k
    · subst hk
      cases hb : mapLookup bCh name with
      | none => simp [lookup_mapInsert]
      | some bc => simp [lookup_mapInsert]
    · cases hb : mapLookup bCh name with
      | none => simpa [lookup_mapInsert, hk] using ih
      | some bc => simpa [lookup_mapInsert, hk] using ih

theorem diff_idempotent_aux :
    ∀ after, wellFormed after = true → ∀ before,
      findFileTreeStateChanges
        (materialiseDiff before (findFileTreeStateChanges before after)) after = none := by
  refine fileTreeState.induct _ ?_
  intro d n m s ch ih hwf before
  by_cases hflip : before.IsDir = d
  · cases d with
    | false =>
      rw [diff_file_file before n m s ch hflip]
      by_cases hc : before.ModTime ≠ m ∨ before.Size ≠ s
      · simp only [hc, if_true, materialiseDiff]
        rw [materialise_of_not_both _ _ (by simp)]
        exact diff_self_aux _ hwf
      · simp only [hc, if_false, materialiseDiff]
        rw [diff_file_file before n m s ch hflip]
        simp [hc]
    | true =>
      cases ch with
      | none =>
        rw [diff_dir_nil before n m s hflip]
        simp only [materialiseDiff]
        exact diff_dir_nil before n m s hflip
      | some es =>
        have hes := (wellFormed_mk true n m s (some es)).mp hwf es rfl
        rw [diff_dir_dir before n m s es hflip]
        by_cases hf : (diffChildren before.Children es).2 = true
        · simp only [hf, if_true, materialiseDiff]
          rw [materialise_dir_dir before n m 0 _ hflip]
          rw [diff_dir_dir _ n m s es (by simpa using hflip)]
          simp only [fileTreeState.Children_mk]
          have hnone : diffChildren
              (some (materialiseChildren before.Children (diffChildren before.Children es).1))
              es = ([], false) := by
            apply diffChildren_none
            intro e he
            obtain ⟨h1, h2⟩ := wellFormedEntries_mem es hes e he
            have hl := lookup_materialiseChildren before.Children
              (diffChildren before.Children es).1 e.1
            rw [diffChildren_lookup before.Children es hes e.1, h1] at hl
            simp only [diffChild] at hl
            simp only [mapLookup]
            cases hb : mapLookup before.Children e.1 with
            | none =>
              simp only [hb] at hl
              exact ⟨e.2, hl, diff_self_aux e.2 h2⟩
            | some b' =>
              simp only [hb] at hl
              have ihc := ih es rfl e he h2 b'
              cases hdc : findFileTreeStateChanges b' e.2 with
              | none =>
                simp only [hdc] at hl
                exact ⟨b', hl, hdc⟩
              | some dc =>
                simp only [hdc] at hl
                simp only [hdc, materialiseDiff] at ihc
                exact ⟨materialise b' dc, hl, ihc⟩
          simp [hnone]
        · have hf' : (diffChildren before.Children es).2 = false := by simpa using hf
          simp only [hf', Bool.false_eq_true, if_false, materialiseDiff]
          rw [diff_dir_dir before n m s es hflip]
          simp [hf']
  · have hflip' : before.IsDir ≠ (fileTreeState.mk d n m s ch).IsDir := by simpa using hflip
    rw [diff_flip before _ hflip']
    simp only [materialiseDiff]
    rw [materialise_of_not_both _ _ (by
      intro h
      apply hflip
      simp only [fileTreeState.IsDir_mk] at h
      rw [h.1, h.2])]
    exact diff_self_aux _ hwf

/-! ## Claims on the diff engine -/

/-- C1. The diff of a snapshot `t` and a snapshot `t'` that is structurally identical to it
(the same `IsDir`, `NodeName`, `ModTime` and `Size` at every node, the same child names at
every directory) is absent; in particular the diff of a snapshot with itself is absent,
whatever its shape. -/
theorem findFileTreeStateChanges_identical :
    (∀ t t', identical t t' = true → findFileTreeStateChanges t t' = none) ∧
    (∀ t, wellFormed t = true → findFileTreeStateChanges t t = none) :=
  ⟨fun t t' h => diff_identical_aux t' t h, diff_self_aux⟩

/-- C1 at a directory two levels deep and at a copy of it whose entries are listed in
another order. -/
theorem findFileTreeStateChanges_identical_witness :
    identical
        (dirNode "run" 7 [("a", fileNode "a" 1 10), ("sub", dirNode "sub" 2 [("b", fileNode "b" 3 5)])])
        (dirNode "run" 7 [("sub", dirNode "sub" 2 [("b", fileNode "b" 3 5)]), ("a", fileNode "a" 1 10)])
      = true ∧
    findFileTreeStateChanges
        (dirNode "run" 7 [("a", fileNode "a" 1 10), ("sub", dirNode "sub" 2 [("b", fileNode "b" 3 5)])])
        (dirNode "run" 7 [("sub", dirNode "sub" 2 [("b", fileNode "b" 3 5)]), ("a", fileNode "a" 1 10)])
      = none :=
  ⟨by decide, findFileTreeStateChanges_identical.1 _ _ (by decide)⟩

/-- C3. Deletions never appear in the diff: every path that leads to a node of the diff of
`before` and `after` leads to a node of `after` with the same name and the same `IsDir`; so
a name that `after` does not hold at the end of a path is not held there by the diff either,
whatever `before` holds.  The stubbed `findDirSpecChanges` of `tram_exec.go` holds no name
at all. -/
theorem deletions_never_in_diff (before after d : fileTreeState)
    (hwf : wellFormed after = true) (hd : findFileTreeStateChanges before after = some d) :
    (∀ p x, nodeAt d p = some x →
      ∃ y, nodeAt after p = some y ∧ y.NodeName = x.NodeName ∧ y.IsDir = x.IsDir) ∧
    (∀ p name, nodeAt after (p ++ [name]) = none → nodeAt d (p ++ [name]) = none) ∧
    (∀ dsa dsb name, dirSpecLookup (findDirSpecChanges dsa dsb) name = none) := by
  refine ⟨fun p x hx => diff_node_in_after_aux p before after d x hwf hd hx, ?_, ?_⟩
  · intro p name hnone
    cases hx : nodeAt d (p ++ [name]) with
    | none => rfl
    | some x =>
      obtain ⟨y, hy, _⟩ := diff_node_in_after_aux _ before after d x hwf hd hx
      rw [hnone] at hy; cases hy
  · intro dsa dsb name
    rfl

/-- C3 where `before` holds `old.txt` and `input.txt` and `after` holds a changed
`input.txt` only: the diff holds `input.txt` and does not hold `old.txt`. -/
theorem deletions_never_in_diff_witness :
    nodeAt (dirNode "run" 2 [("input.txt", fileNode "input.txt" 2 20)]) ["old.txt"] = none ∧
    nodeAt (.mk true "run" 2 0 (some [("input.txt", fileNode "input.txt" 2 20)])) ["old.txt"]
      = none :=
  ⟨by rfl,
   (deletions_never_in_diff
      (dirNode "run" 1 [("old.txt", fileNode "old.txt" 1 3), ("input.txt", fileNode "input.txt" 1 10)])
      (dirNode "run" 2 [("input.txt", fileNode "input.txt" 2 20)])
      (.mk true "run" 2 0 (some [("input.txt", fileNode "input.txt" 2 20)]))
      (by decide) (by rfl)).2.1 [] "old.txt" (by rfl)⟩

/-- C2. Completeness of the diff: when `after` is a snapshot in which no file has children
and the path `p` leads in it to a file `f`, and `before` has no node at `p` or has there a
file whose `ModTime` or `Size` differs from that of `f`, the diff of `before` and `after` is
present and holds exactly `f` at `p`.  (Nothing is required of `before`.) -/
theorem diff_complete (before after f : fileTreeState) (p : List String)
    (hwf : wellFormed after = true) (hnc : filesHaveNoChildren after = true)
    (hf : nodeAt after p = some f) (hfile : f.IsDir = false)
    (hb : nodeAt before p = none ∨
      ∃ b, nodeAt before p = some b ∧ b.IsDir = false ∧
        (b.ModTime ≠ f.ModTime ∨ b.Size ≠ f.Size)) :
    ∃ d, findFileTreeStateChanges before after = some d ∧ nodeAt d p = some f :=
  diff_complete_aux p before after f hwf hnc hf hfile hb

/-- C2 on the scenario of the specification: `input.txt` grows from 10 to 20 bytes and
`output.txt` (5 bytes) is new; the diff holds the new `input.txt` and `output.txt`. -/
theorem diff_complete_witness :
    (∃ d, findFileTreeStateChanges
        (dirNode "run" 1 [("input.txt", fileNode "input.txt" 1 10)])
        (dirNode "run" 2 [("input.txt", fileNode "input.txt" 2 20),
          ("output.txt", fileNode "output.txt" 2 5)]) = some d ∧
      nodeAt d ["input.txt"] = some (fileNode "input.txt" 2 20)) ∧
    (∃ d, findFileTreeStateChanges
        (dirNode "run" 1 [("input.txt", fileNode "input.txt" 1 10)])
        (dirNode "run" 2 [("input.txt", fileNode "input.txt" 2 20),
          ("output.txt", fileNode "output.txt" 2 5)]) = some d ∧
      nodeAt d ["output.txt"] = some (fileNode "output.txt" 2 5)) :=
  ⟨diff_complete _ _ (fileNode "input.txt" 2 20) ["input.txt"] (by decide) (by decide)
      (by rfl) (by rfl)
      (Or.inr ⟨fileNode "input.txt" 1 10, by rfl, by rfl, Or.inl (by decide)⟩),
   diff_complete _ _ (fileNode "output.txt" 2 5) ["output.txt"] (by decide) (by decide)
      (by rfl) (by rfl) (Or.inl (by rfl))⟩

/-- C4. Minimality of the diff: when the path `p` leads to a file in `after` and to a file
with the same `ModTime` and `Size` in `before`, and every proper prefix of `p` leads to a
directory in both, the diff of `before` and `after` holds no node at `p`. -/
theorem diff_minimal (before after a b d : fileTreeState) (p : List String)
    (hwf : wellFormed after = true)
    (ha : nodeAt after p = some a) (hafile : a.IsDir = false)
    (hb : nodeAt before p = some b) (hbfile : b.IsDir = false)
    (hm : b.ModTime = a.ModTime) (hs : b.Size = a.Size)
    (hpre : ∀ q r, p = q ++ r → r ≠ [] →
      ∃ x y, nodeAt before q = some x ∧ x.IsDir = true ∧
        nodeAt after q = some y ∧ y.IsDir = true)
    (hd : findFileTreeStateChanges before after = some d) :
    nodeAt d p = none :=
  diff_minimal_aux p before after a b d hwf ha hafile hb hbfile hm hs hpre hd

/-- C4 where `keep.txt` is unchanged and `input.txt` is rewritten: the diff is present and
does not hold `keep.txt`. -/
theorem diff_minimal_witness :
    findFileTreeStateChanges
        (dirNode "run" 1 [("keep.txt", fileNode "keep.txt" 1 7),
          ("input.txt", fileNode "input.txt" 1 10)])
        (dirNode "run" 2 [("keep.txt", fileNode "keep.txt" 1 7),
          ("input.txt", fileNode "input.txt" 2 20)])
      = some (.mk true "run" 2 0 (some [("input.txt", fileNode "input.txt" 2 20)])) ∧
    nodeAt (.mk true "run" 2 0 (some [("input.txt", fileNode "input.txt" 2 20)])) ["keep.txt"]
      = none :=
  ⟨by rfl,
   diff_minimal
      (dirNode "run" 1 [("keep.txt", fileNode "keep.txt" 1 7),
        ("input.txt", fileNode "input.txt" 1 10)])
      (dirNode "run" 2 [("keep.txt", fileNode "keep.txt" 1 7),
        ("input.txt", fileNode "input.txt" 2 20)])
      (fileNode "keep.txt" 1 7) (fileNode "keep.txt" 1 7)
      (.mk true "run" 2 0 (some [("input.txt", fileNode "input.txt" 2 20)])) ["keep.txt"]
      (by decide) (by rfl) (by rfl) (by rfl) (by rfl) (by rfl) (by rfl)
      (by
        intro q r h hr
        cases q with
        | nil => exact ⟨_, _, rfl, rfl, rfl, rfl⟩
        | cons k q' =>
          cases q' with
          | nil => simp at h; exact absurd h.2.symm (fun e => hr e.symm)
          | cons k' q'' => simp at h)
      (by rfl)⟩

/-- C5. Idempotence of the diff: when the diff of `before` and `after` is materialised over
`before`, the diff of the result and `after` is absent.  (No assumption on the children of
files is needed.) -/
theorem diff_idempotent (before after : fileTreeState) (hwf : wellFormed after = true) :
    findFileTreeStateChanges
      (materialiseDiff before (findFileTreeStateChanges before after)) after = none :=
  diff_idempotent_aux after hwf before

/-- C5 on a run that rewrites `input.txt`, adds a file in the directory `sub` and adds the
directory `new`. -/
theorem diff_idempotent_witness :
    findFileTreeStateChanges
      (materialiseDiff
        (dirNode "run" 1 [("input.txt", fileNode "input.txt" 1 10),
          ("sub", dirNode "sub" 1 [("a", fileNode "a" 1 3)])])
        (findFileTreeStateChanges
          (dirNode "run" 1 [("input.txt", fileNode "input.txt" 1 10),
            ("sub", dirNode "sub" 1 [("a", fileNode "a" 1 3)])])
          (dirNode "run" 2 [("input.txt", fileNode "input.txt" 2 20),
            ("sub", dirNode "sub" 2 [("a", fileNode "a" 1 3), ("b", fileNode "b" 2 4)]),
            ("new", dirNode "new" 2 [("c", fileNode "c" 2 1)])])))
      (dirNode "run" 2 [("input.txt", fileNode "input.txt" 2 20),
        ("sub", dirNode "sub" 2 [("a", fileNode "a" 1 3), ("b", fileNode "b" 2 4)]),
        ("new", dirNode "new" 2 [("c", fileNode "c" 2 1)])]) = none :=
  diff_idempotent _ _ (by decide)

/-! ## Lemmas on `Ext` -/

theorem extScan_skip (l before suffix : List Char) (h : ∀ c ∈ l, c ≠ '.' ∧ c ≠ '/') :
    extScan (l ++ before) suffix = extScan before (l.reverse ++ suffix) := by
  induction l generalizing suffix with
  | nil => rfl
  | cons c l ih =>
    obtain ⟨h1, h2⟩ := h c (List.mem_cons_self _ _)
    have ih' := ih (c :: suffix) (fun x hx => h x (List.mem_cons_of_mem _ hx))
    have step : extScan (c :: (l ++ before)) suffix = extScan (l ++ before) (c :: suffix) := by
      simp [extScan, h1, h2]
    rw [List.cons_append, step, ih']
    simp

theorem Ext_of_last_dot (dir suffix : List Char) (h : ∀ c ∈ suffix, c ≠ '.' ∧ c ≠ '/') :
    Ext (String.mk (dir ++ '.' :: suffix)) = String.mk ('.' :: suffix) := by
  have hrev : ∀ c ∈ suffix.reverse, c ≠ '.' ∧ c ≠ '/' :=
    fun c hc => h c (List.mem_reverse.mp hc)
  simp only [Ext, List.reverse_append, List.reverse_cons, List.append_assoc,
    List.singleton_append]
  rw [extScan_skip suffix.reverse ('.' :: dir.reverse) [] hrev]
  simp [extScan]

/-! ## Claims on the archive commands -/

/-- C6. The command chosen by `guessUnpackCommand` is decided by the extension of the file
name alone: `tar -xf` for `.tar`, `tar -xzf` for `.gz` and `.gzip`, `7za x` for `.7z` and
`.7zip`, applied to the file and run in `workdir`, and no command for any other extension;
two file names with the same extension get the same kind of command.  The extension is the
suffix that begins at the last dot of the last path element. -/
theorem guessUnpackCommand_by_extension (workdir fullFilename : String) :
    (Ext fullFilename = ".tar" →
      guessUnpackCommand workdir fullFilename =
        some ⟨["tar", "-xf", fullFilename], workdir⟩) ∧
    (Ext fullFilename = ".gz" ∨ Ext fullFilename = ".gzip" →
      guessUnpackCommand workdir fullFilename =
        some ⟨["tar", "-xzf", fullFilename], workdir⟩) ∧
    (Ext fullFilename = ".7z" ∨ Ext fullFilename = ".7zip" →
      guessUnpackCommand workdir fullFilename =
        some ⟨["7za", "x", fullFilename], workdir⟩) ∧
    (Ext fullFilename ∉ [".tar", ".gz", ".gzip", ".7z", ".7zip"] →
      guessUnpackCommand workdir fullFilename = none) ∧
    (∀ workdir' fullFilename', Ext fullFilename' = Ext fullFilename →
      (guessUnpackCommand workdir' fullFilename').map Cmd.kind =
        (guessUnpackCommand workdir fullFilename).map Cmd.kind) ∧
    (∀ dir suffix, fullFilename = String.mk (dir ++ '.' :: suffix) →
      (∀ c ∈ suffix, c ≠ '.' ∧ c ≠ '/') → Ext fullFilename = String.mk ('.' :: suffix)) := by
  refine ⟨?_, ?_, ?_, ?_, ?_, fun dir suffix hf hs => by rw [hf]; exact Ext_of_last_dot dir suffix hs⟩
  · intro h
    simp [guessUnpackCommand, Command, h]
  · intro h
    rcases h with h | h <;> simp [guessUnpackCommand, Command, h]
  · intro h
    rcases h with h | h <;> simp [guessUnpackCommand, Command, h]
  · intro h
    simp only [List.mem_cons, List.mem_singleton, List.not_mem_nil, or_false, not_or] at h
    simp [guessUnpackCommand, h]
  · intro workdir' fullFilename' h
    simp only [guessUnpackCommand, h]
    by_cases h1 : Ext fullFilename = ".tar"
    · simp [h1, Command, Cmd.kind]
    · by_cases h2 : Ext fullFilename = ".gz" ∨ Ext fullFilename = ".gzip"
      · simp [h1, h2, Command, Cmd.kind]
      · by_cases h3 : Ext fullFilename = ".7z" ∨ Ext fullFilename = ".7zip"
        · simp [h1, h2, h3, Command, Cmd.kind]
        · simp [h1, h2, h3]

/-- C6 on the two file names of the specification: `data.tar.gz` has the extension `.gz`
and gets the gzip-compressed tar extraction, `data.xyz` gets no command. -/
theorem guessUnpackCommand_by_extension_witness :
    Ext "data.tar.gz" = ".gz" ∧
    guessUnpackCommand "/home/contra/exec_dir/run" "data.tar.gz" =
      some ⟨["tar", "-xzf", "data.tar.gz"], "/home/contra/exec_dir/run"⟩ ∧
    Ext "data.xyz" = ".xyz" ∧
    guessUnpackCommand "/home/contra/exec_dir/run" "data.xyz" = none :=
  ⟨by decide,
   (guessUnpackCommand_by_extension "/home/contra/exec_dir/run" "data.tar.gz").2.1
     (Or.inl (by decide)),
   by decide,
   (guessUnpackCommand_by_extension "/home/contra/exec_dir/run" "data.xyz").2.2.2.1
     (by decide)⟩

/-! ## Claims on the payload locator -/

theorem diveIntoData_single (workdir : FsPath) (n : String) (child : FsNode)
    (h : child.IsDir = true) :
    diveIntoData workdir (.dir n true [child]) =
      diveIntoData (workdir ++ [child.Name]) child := by
  rw [diveIntoData]
  simp [h]

theorem diveIntoData_stop (workdir : FsPath) (n : String) (es : List FsNode)
    (h : singleDir es = false) :
    diveIntoData workdir (.dir n true es) = some workdir := by
  match es, h with
  | [], _ => rfl
  | [child], h =>
    have : child.IsDir = false := by simpa [singleDir] using h
    simp [diveIntoData, this]
  | _ :: _ :: _, _ => rfl

theorem singleDir_cases (es : List FsNode) :
    (singleDir es = true ∧ ∃ child, es = [child] ∧ child.IsDir = true) ∨
    (singleDir es = false ∧ (es = [] ∨ 2 ≤ es.length ∨ ∃ e ∈ es, e.IsDir = false)) := by
  match es with
  | [] => exact Or.inr ⟨rfl, Or.inl rfl⟩
  | [child] =>
    cases h : child.IsDir with
    | true => exact Or.inl ⟨by simp [singleDir, h], child, rfl, h⟩
    | false =>
      exact Or.inr ⟨by simp [singleDir, h], Or.inr (Or.inr ⟨child, by simp, h⟩)⟩
  | _ :: _ :: _ => exact Or.inr ⟨rfl, Or.inr (Or.inl (by simp))⟩

theorem isChain_nil (root : FsNode) (h : isChain [] root = true) :
    ∃ n f1 f2, root = .dir n true [.file f1, .file f2] := by
  match root, h with
  | .dir n true [.file f1, .file f2], _ => exact ⟨n, f1, f2, rfl⟩

theorem isChain_cons (name : String) (names : List String) (root : FsNode)
    (h : isChain (name :: names) root = true) :
    ∃ n child, root = .dir n true [child] ∧ child.IsDir = true ∧ child.Name = name ∧
      isChain names child = true := by
  match root, h with
  | .dir n true [child], h =>
    rw [isChain] at h
    simp only [Bool.and_eq_true, beq_iff_eq] at h
    exact ⟨n, child, rfl, h.1.1, h.1.2, h.2⟩

theorem entryAt_single (n : String) (r : Bool) (child : FsNode) (names : List String) :
    entryAt (.dir n r [child]) (child.Name :: names) = entryAt child names := by
  simp [entryAt, FsNode.entries]

theorem diveIntoData_returns_aux :
    ∀ (root : FsNode) (workdir : FsPath), root.IsDir = true → allReadable root = true →
      ∃ p, diveIntoData workdir root = some p
  | .file _, _, hd, _ => by simp [FsNode.IsDir] at hd
  | .dir _ false _, _, _, hr => by simp [allReadable] at hr
  | .dir n true [], w, _, _ => ⟨w, diveIntoData_stop w n [] rfl⟩
  | .dir n true [child], w, _, hr => by
    cases hc : child.IsDir with
    | false => exact ⟨w, diveIntoData_stop w n [child] (by simp [singleDir, hc])⟩
    | true =>
      have hr' : allReadable child = true := by
        simpa [allReadable, allReadableList] using hr
      obtain ⟨p, hp⟩ := diveIntoData_returns_aux child (w ++ [child.Name]) hc hr'
      exact ⟨p, by rw [diveIntoData_single w n child hc, hp]⟩
  | .dir n true (_ :: _ :: _), w, _, _ => ⟨w, diveIntoData_stop w n _ rfl⟩

theorem diveIntoData_stops_aux :
    ∀ (root : FsNode) (workdir p : FsPath), diveIntoData workdir root = some p →
      ∃ names n es, p = workdir ++ names ∧ entryAt root names = some (.dir n true es) ∧
        (es = [] ∨ 2 ≤ es.length ∨ ∃ e ∈ es, e.IsDir = false) ∧
        ∀ q r, names = q ++ r → r ≠ [] →
          ∃ n' child, entryAt root q = some (.dir n' true [child]) ∧ child.IsDir = true
  | .file _, _, _, h => by simp [diveIntoData] at h
  | .dir _ false _, _, _, h => by simp [diveIntoData] at h
  | .dir n true [], w, p, h => by
    rw [diveIntoData_stop w n [] rfl, Option.some.injEq] at h
    exact ⟨[], n, [], by simp [h], rfl, Or.inl rfl,
      fun q r hq hr => by
        have := List.append_eq_nil.mp hq.symm
        exact absurd this.2 hr⟩
  | .dir n true [child], w, p, h => by
    cases hc : child.IsDir with
    | false =>
      rw [diveIntoData_stop w n [child] (by simp [singleDir, hc]), Option.some.injEq] at h
      exact ⟨[], n, [child], by simp [h], rfl, Or.inr (Or.inr ⟨child, by simp, hc⟩),
        fun q r hq hr => by
          have := List.append_eq_nil.mp hq.symm
          exact absurd this.2 hr⟩
    | true =>
      rw [diveIntoData_single w n child hc] at h
      obtain ⟨names, n1, es1, h1, h2, h3, h4⟩ :=
        diveIntoData_stops_aux child (w ++ [child.Name]) p h
      refine ⟨child.Name :: names, n1, es1, by simp [h1], ?_, h3, ?_⟩
      · rw [entryAt_single]; exact h2
      · intro q r hq hr
        cases q with
        | nil => exact ⟨n, child, rfl, hc⟩
        | cons k q' =>
          simp only [List.cons_append, List.cons.injEq] at hq
          obtain ⟨hk, hq'⟩ := hq
          subst hk
          obtain ⟨n', c', hc1, hc2⟩ := h4 q' r hq' hr
          exact ⟨n', c', by rw [entryAt_single]; exact hc1, hc2⟩
  | .dir n true (e1 :: e2 :: es), w, p, h => by
    rw [diveIntoData_stop w n (e1 :: e2 :: es) rfl, Option.some.injEq] at h
    exact ⟨[], n, e1 :: e2 :: es, by simp [h], rfl, Or.inr (Or.inl (by simp)),
      fun q r hq hr => by
        have := List.append_eq_nil.mp hq.symm
        exact absurd this.2 hr⟩

/-- C7. On a chain of `names.length` nested directories, each holding exactly one entry,
the next directory, and the last one holding two files, `diveIntoData` applied to the top
returns the path of the innermost directory: the starting path joined with all the
directory names in order. -/
theorem diveIntoData_chain (names : List String) (root : FsNode) (workdir : FsPath)
    (h : isChain names root = true) :
    diveIntoData workdir root = some (workdir ++ names) := by
  induction names generalizing root workdir with
  | nil =>
    obtain ⟨n, f1, f2, hr⟩ := isChain_nil root h
    subst hr
    simp [diveIntoData]
  | cons name names ih =>
    obtain ⟨n, child, hr, hd, hn, hc⟩ := isChain_cons name names root h
    subst hr
    rw [diveIntoData_single workdir n child hd, ih child _ hc, hn]
    simp

/-- C7 on the chain of depth three of the specification: the directory at depth three is
returned, neither the top nor the directory at depth one. -/
theorem diveIntoData_chain_witness :
    isChain ["repo", "pkg", "data"]
      (.dir "run" true [.dir "repo" true [.dir "pkg" true
        [.dir "data" true [.file "a.txt", .file "b.txt"]]]]) = true ∧
    diveIntoData ["/home/contra/exec_dir/run"]
      (.dir "run" true [.dir "repo" true [.dir "pkg" true
        [.dir "data" true [.file "a.txt", .file "b.txt"]]]])
      = some (["/home/contra/exec_dir/run"] ++ ["repo", "pkg", "data"]) :=
  ⟨by decide, diveIntoData_chain _ _ _ (by decide)⟩

/-- C8, as the specification states it, fails on an empty directory: `diveIntoData` returns
the directory itself, which holds neither several entries nor an entry that is not a
directory. -/
theorem diveIntoData_empty_directory :
    diveIntoData ["/home/contra/exec_dir/run"] (.dir "run" true []) =
      some ["/home/contra/exec_dir/run"] ∧
    ¬ ∃ names n r es,
      ["/home/contra/exec_dir/run"] = ["/home/contra/exec_dir/run"] ++ names ∧
      entryAt (.dir "run" true []) names = some (.dir n r es) ∧
      (2 ≤ es.length ∨ ∃ e ∈ es, e.IsDir = false) := by
  refine ⟨by decide, ?_⟩
  rintro ⟨names, n, r, es, h1, h2, h3⟩
  have hn : names = [] := by simpa using h1
  subst hn
  simp only [entryAt, Option.some.injEq, FsNode.dir.injEq] at h2
  obtain ⟨_, _, hes⟩ := h2
  subst hes
  simp at h3

/-- C8, amended.  In a tree whose directories are all readable `diveIntoData` applied to a
directory returns, and whenever it returns a path, that path is the starting path joined
with the names of a descent from `root` to a directory which is empty, or holds several
entries, or holds an entry that is not a directory, while every directory strictly above it
on the descent lists exactly one entry, a directory. -/
theorem diveIntoData_stops (root : FsNode) (workdir : FsPath) :
    (root.IsDir = true → allReadable root = true →
      ∃ p, diveIntoData workdir root = some p) ∧
    (∀ p, diveIntoData workdir root = some p →
      ∃ names n es, p = workdir ++ names ∧ entryAt root names = some (.dir n true es) ∧
        (es = [] ∨ 2 ≤ es.length ∨ ∃ e ∈ es, e.IsDir = false) ∧
        ∀ q r, names = q ++ r → r ≠ [] →
          ∃ n' child, entryAt root q = some (.dir n' true [child]) ∧ child.IsDir = true) :=
  ⟨diveIntoData_returns_aux root workdir, diveIntoData_stops_aux root workdir⟩

/-- C8 amended, on a wrapper directory around a directory that holds one file. -/
theorem diveIntoData_stops_witness :
    allReadable (.dir "run" true [.dir "repo" true [.file "input.txt"]]) = true ∧
    diveIntoData ["/home/contra/exec_dir/run"]
      (.dir "run" true [.dir "repo" true [.file "input.txt"]]) =
        some ["/home/contra/exec_dir/run", "repo"] ∧
    (∃ p, diveIntoData ["/home/contra/exec_dir/run"]
      (.dir "run" true [.dir "repo" true [.file "input.txt"]]) = some p) ∧
    ∃ names n es, ["/home/contra/exec_dir/run", "repo"] =
        ["/home/contra/exec_dir/run"] ++ names ∧
      entryAt (.dir "run" true [.dir "repo" true [.file "input.txt"]]) names =
        some (.dir n true es) ∧
      (es = [] ∨ 2 ≤ es.length ∨ ∃ e ∈ es, e.IsDir = false) ∧
      ∀ q r, names = q ++ r → r ≠ [] →
        ∃ n' child, entryAt (.dir "run" true [.dir "repo" true [.file "input.txt"]]) q =
          some (.dir n' true [child]) ∧ child.IsDir = true :=
  ⟨by decide, by decide,
   (diveIntoData_stops (.dir "run" true [.dir "repo" true [.file "input.txt"]])
      ["/home/contra/exec_dir/run"]).1 (by decide) (by decide),
   (diveIntoData_stops (.dir "run" true [.dir "repo" true [.file "input.txt"]])
      ["/home/contra/exec_dir/run"]).2 _ (by decide)⟩

/-! ## Claims on the pipeline -/

theorem guessPackCommand_output (workdir dirToPack : String) :
    guessPackCommand workdir "output.tar.gz" dirToPack =
      some ⟨["tar", "-czf", "output.tar.gz", dirToPack], workdir⟩ := by
  have h : Ext "output.tar.gz" = ".gz" := by decide
  simp [guessPackCommand, Command, h]

theorem packTree_output_ne_fatal (run : JobRun) (baseDir outDir : String)
    (tree : fileTreeState) : packTree run baseDir outDir "output.tar.gz" tree ≠ .fatal := by
  simp only [packTree, guessPackCommand_output]
  cases run.treeCopyErr with
  | some err => simp
  | none =>
    cases run.packCmdErr with
    | some out => simp
    | none => simp

/-- C9. When every stage of `execute` up to the diff succeeds, `execute` returns, the
captured output and the script error are returned as they are, and the output path is
non-empty exactly when the diff of the two snapshots is present: it is then the path of
`output.tar.gz` in `outDir`, whether or not the script ended with an error. -/
theorem execute_output_iff_diff (run : JobRun) (dataFilename controlFilename : String)
    (unpackCmd : Cmd) (execDir : FsPath) (ftsBefore ftsAfter : fileTreeState)
    (h1 : run.dataFilename = some dataFilename)
    (h2 : run.controlFilename = some controlFilename)
    (h3 : run.dos2unixErr = none)
    (h4 : guessUnpackCommand runDir (filepathJoin srcDir dataFilename) = some unpackCmd)
    (h5 : run.unpackErr = none)
    (h6 : diveIntoData [runDir] run.runTree = some execDir)
    (h7 : run.placeErr = none)
    (h8 : run.ftsBefore = some ftsBefore)
    (h9 : run.ftsAfter = some ftsAfter) :
    ∃ outputName, execute run = .returned run.scriptOutput outputName run.scriptErr ∧
      (outputName ≠ "" ↔ (findFileTreeStateChanges ftsBefore ftsAfter).isSome = true) ∧
      ((findFileTreeStateChanges ftsBefore ftsAfter).isSome = true →
        outputName = "/home/contra/exec_dir/out/output.tar.gz") := by
  simp only [execute, h1, h2, h3, h4, h5, h6, h7, h8, h9]
  cases hd : findFileTreeStateChanges ftsBefore ftsAfter with
  | none => exact ⟨"", rfl, by simp, by simp⟩
  | some d =>
    have hne := packTree_output_ne_fatal run execPath outDir d
    have hname : filepathJoin outDir "output.tar.gz" =
        "/home/contra/exec_dir/out/output.tar.gz" := by decide
    refine ⟨"/home/contra/exec_dir/out/output.tar.gz", ?_, by simp, by simp⟩
    dsimp only
    rw [hname]
    generalize packTree run execPath outDir "output.tar.gz" d = r at hne
    cases r with
    | ok => rfl
    | error msg => rfl
    | fatal => exact absurd rfl hne

/-- C9 on the scenario of the specification: the script exits with status 1 after writing
its files; the job completes, the script error is reported and the artifact path is
returned. -/
theorem execute_output_iff_diff_witness :
    execute failingScriptRun =
      .returned [111, 107, 10] "/home/contra/exec_dir/out/output.tar.gz"
        (some "exit status 1") ∧
    ∃ outputName,
      execute failingScriptRun =
        .returned failingScriptRun.scriptOutput outputName failingScriptRun.scriptErr ∧
      (outputName ≠ "" ↔
        (findFileTreeStateChanges
          (dirNode "run" 1 [("input.txt", fileNode "input.txt" 1 10),
            ("control.sh", fileNode "control.sh" 1 40)])
          (dirNode "run" 2 [("input.txt", fileNode "input.txt" 2 20),
            ("control.sh", fileNode "control.sh" 1 40),
            ("output.txt", fileNode "output.txt" 2 5)])).isSome = true) ∧
      ((findFileTreeStateChanges
          (dirNode "run" 1 [("input.txt", fileNode "input.txt" 1 10),
            ("control.sh", fileNode "control.sh" 1 40)])
          (dirNode "run" 2 [("input.txt", fileNode "input.txt" 2 20),
            ("control.sh", fileNode "control.sh" 1 40),
            ("output.txt", fileNode "output.txt" 2 5)])).isSome = true →
        outputName = "/home/contra/exec_dir/out/output.tar.gz") :=
  ⟨by decide,
   execute_output_iff_diff failingScriptRun "data.tar.gz" "control.sh"
    ⟨["tar", "-xzf", "/home/contra/exec_dir/src/data.tar.gz"],
      "/home/contra/exec_dir/run"⟩
    ["/home/contra/exec_dir/run"] _ _ rfl rfl rfl (by decide) rfl (by decide) rfl rfl rfl⟩

/-- C10 fails on the code: when the pack command fails `packTree` returns an error, and
`execute`, which drops that error, still returns the path of the output archive. -/
theorem execute_drops_packTree_error :
    findFileTreeStateChanges
      (dirNode "run" 1 [("input.txt", fileNode "input.txt" 1 10),
        ("control.sh", fileNode "control.sh" 1 40)])
      (dirNode "run" 2 [("input.txt", fileNode "input.txt" 2 20),
        ("control.sh", fileNode "control.sh" 1 40),
        ("output.txt", fileNode "output.txt" 2 5)]) = some scenarioDiff ∧
    packTree failingPackRun execPath outDir "output.tar.gz" scenarioDiff =
      .error "tar: output.tar.gz: Cannot open: No space left on device" ∧
    execute failingPackRun =
      .returned [111, 107, 10] "/home/contra/exec_dir/out/output.tar.gz" none :=
  ⟨by rfl, by decide, by decide⟩

end ContraExec
